import Mathlib

/-!
Verification of the `Hash` value type and its textual codecs from
`src/libutil/hash.hh` (a content-addressed store's hash layer).

The header declares the interface; the inline length functions
(`base16Len`, `base32Len`, `base64Len`) are taken directly from the
header, while the bodies of the parsers, printers, `compressHash` and
`HashSink` (which live in a `.cc` file not present here) are modelled
from the specification's precise descriptions (alphabets, bit packing,
length-based dispatch, SRI framing, cyclic XOR folding).

Bytes are modelled as `Nat` with an explicit `< 256` well-formedness
bound; strings are modelled by `String` / `List Char`.
-/

set_option maxHeartbeats 2000000

deriving instance DecidableEq for Except

namespace NixHash

/-- Hash algorithms: `enum HashType : char { htMD5 = 42, htSHA1, htSHA256, htSHA512 }`
(hash.hh line 15). -/
inductive HashType where
  | htMD5
  | htSHA1
  | htSHA256
  | htSHA512
  deriving DecidableEq, Repr

export HashType (htMD5 htSHA1 htSHA256 htSHA512)

/-- Digest size in bytes: `md5HashSize = 16` (hash.hh line 18). -/
def md5HashSize : Nat := 16

/-- Digest size in bytes: `sha1HashSize = 20` (hash.hh line 19). -/
def sha1HashSize : Nat := 20

/-- Digest size in bytes: `sha256HashSize = 32` (hash.hh line 20). -/
def sha256HashSize : Nat := 32

/-- Digest size in bytes: `sha512HashSize = 64` (hash.hh line 21). -/
def sha512HashSize : Nat := 64

/-- Digest size of each algorithm (spec section 3: 16, 20, 32, 64 bytes). -/
def hashSize : HashType → Nat
  | .htMD5 => md5HashSize
  | .htSHA1 => sha1HashSize
  | .htSHA256 => sha256HashSize
  | .htSHA512 => sha512HashSize

/-- Canonical lowercase algorithm names, as a list of characters. -/
def printHashTypeL : HashType → List Char
  | .htMD5 => "md5".data
  | .htSHA1 => "sha1".data
  | .htSHA256 => "sha256".data
  | .htSHA512 => "sha512".data

/-- The reverse of `parseHashType` (hash.hh line 213). -/
def printHashType (t : HashType) : String := String.mk (printHashTypeL t)

/-- Modelled from the spec: `parseHashTypeOpt` (hash.hh line 208, body in the
missing `.cc` file) maps the four canonical names to algorithms and returns
nothing on any other string. List-of-characters version. -/
def parseHashTypeOptL (s : List Char) : Option HashType :=
  if s = "md5".data then some .htMD5
  else if s = "sha1".data then some .htSHA1
  else if s = "sha256".data then some .htSHA256
  else if s = "sha512".data then some .htSHA512
  else none

/-- The set of algorithm names, `extern std::set<std::string> hashTypes`
(hash.hh line 23). -/
def hashTypes : List String := ["md5", "sha1", "sha256", "sha512"]

/-- The only error kind of this module: `MakeError(BadHash, Error)`
(hash.hh line 12). -/
inductive HashError where
  | badHash (msg : String)
  deriving DecidableEq, Repr

/-- Output formats, `enum struct HashFormat` (hash.hh lines 30-41). -/
inductive HashFormat where
  | Base64
  | Base32
  | Base16
  | SRI
  deriving DecidableEq, Repr

/-- The `Hash` value: an algorithm tag plus digest bytes (hash.hh lines 44-51;
the fixed 64-byte buffer plus effective length `hashSize` is modelled as the
list of the first `hashSize` bytes, as the spec's data model allows). -/
structure Hash where
  type : HashType
  hash : List Nat
  deriving DecidableEq, Repr

/-- Effective digest length, the `hashSize` field of the source struct. -/
def Hash.hashSize (h : Hash) : Nat := h.hash.length

/-- Well-formedness of the byte model: every byte is below 256. -/
def validBytes (d : List Nat) : Prop := ∀ b ∈ d, b < 256

instance (d : List Nat) : Decidable (validBytes d) := by
  unfold validBytes; infer_instance

/-- A valid `Hash`: digest length matches the algorithm and bytes are bytes. -/
def validHash (h : Hash) : Prop :=
  h.hash.length = hashSize h.type ∧ validBytes h.hash

/-- Zero-filled hash object, `explicit Hash(HashType type)` (hash.hh line 55). -/
def Hash.ofType (t : HashType) : Hash := ⟨t, List.replicate (NixHash.hashSize t) 0⟩

/-- Length of a base-16 rendering of an `n`-byte digest, `hashSize * 2`
(hash.hh line 108). -/
def base16LenN (n : Nat) : Nat := n * 2

/-- Length of a base-32 rendering of an `n`-byte digest,
`(hashSize * 8 - 1) / 5 + 1` (hash.hh line 116). -/
def base32LenN (n : Nat) : Nat := (n * 8 - 1) / 5 + 1

/-- Length of a base-64 rendering of an `n`-byte digest,
`((4 * hashSize / 3) + 3) & ~3` (hash.hh line 124); clearing the two low
bits of a `Nat` is division and multiplication by 4. -/
def base64LenN (n : Nat) : Nat := ((4 * n / 3) + 3) / 4 * 4

/-- `Hash::base16Len()` (hash.hh lines 106-109). -/
def Hash.base16Len (h : Hash) : Nat := base16LenN h.hashSize

/-- `Hash::base32Len()` (hash.hh lines 114-117). -/
def Hash.base32Len (h : Hash) : Nat := base32LenN h.hashSize

/-- `Hash::base64Len()` (hash.hh lines 122-125). -/
def Hash.base64Len (h : Hash) : Nat := base64LenN h.hashSize

/-- Ceiling division on naturals, used to state the spec's length formulae. -/
def ceilDiv (a b : Nat) : Nat := (a + b - 1) / b

/-! ### Alphabets -/

/-- Lowercase hexadecimal alphabet (spec section 4.1). -/
def base16Chars : List Char := "0123456789abcdef".data

/-- The ecosystem base-32 alphabet, `extern const std::string base32Chars`
(hash.hh line 25; spec section 3: omits e, o, t, u). -/
def base32Chars : List Char := "0123456789abcdfghijklmnpqrsvwxyz".data

/-- Standard RFC 4648 base-64 alphabet (spec section 4.1). -/
def base64Chars : List Char :=
  "ABCDEFGHIJKLMNOPQRSTUVWXYZabcdefghijklmnopqrstuvwxyz0123456789+/".data

/-- Value of a character in an alphabet: the index of its first occurrence. -/
def alphaVal (alpha : List Char) (c : Char) : Option Nat :=
  match alpha with
  | [] => none
  | x :: xs => if x = c then some 0 else (alphaVal xs c).map (· + 1)

/-! ### Base-16 codec (spec section 4.1) -/

/-- Character for a 4-bit value. -/
def hexDigit (v : Nat) : Char := base16Chars.getD v '0'

/-- Modelled from the spec: base-16 rendering of a digest, two lowercase hex
characters per byte, high nibble first. -/
def b16Encode : List Nat → List Char
  | [] => []
  | b :: rest => hexDigit (b / 16) :: hexDigit (b % 16) :: b16Encode rest

/-- Modelled from the spec: base-16 decoding; accepts only `0-9a-f` and an
even number of characters. -/
def b16Decode : List Char → Option (List Nat)
  | [] => some []
  | c1 :: c2 :: rest =>
    match alphaVal base16Chars c1, alphaVal base16Chars c2, b16Decode rest with
    | some hi, some lo, some r => some ((hi * 16 + lo) :: r)
    | _, _, _ => none
  | [_] => none

/-! ### Base-32 codec (spec sections 3, 4.1) -/

/-- Little-endian positional value of a digit string in the given base. -/
def leNum (base : Nat) : List Nat → Nat
  | [] => 0
  | d :: rest => d + base * leNum base rest

/-- The five bits of the digest starting at bit `5*n`, read little-endian
across the byte boundary (spec section 4.1: `b = n*5`, `i = b/8`, `j = b%8`,
five bits spanning bytes `i` and `i+1`, out-of-range bytes read as zero). -/
def fiveBits (d : List Nat) (n : Nat) : Nat :=
  (d.getD (5 * n / 8) 0 / 2 ^ (5 * n % 8) +
    d.getD (5 * n / 8 + 1) 0 * 2 ^ (8 - 5 * n % 8)) % 32

/-- Modelled from the spec: the ecosystem base-32 rendering; the symbol at
string position `encodedLen - 1 - n` encodes bits `5n..5n+4` of the digest. -/
def nix32Encode (d : List Nat) : List Char :=
  (List.range (base32LenN d.length)).reverse.map
    (fun n => base32Chars.getD (fiveBits d n) '0')

/-- Split a natural number into `n` little-endian base-256 bytes. -/
def bytesOfVal : Nat → Nat → List Nat
  | _, 0 => []
  | v, n + 1 => v % 256 :: bytesOfVal (v / 256) n

/-- Modelled from the spec: ecosystem base-32 decoding to an `n`-byte digest,
the inverse of `nix32Encode`; any character outside the alphabet is a parse
error, and residual high bits beyond `8*n` bits must be zero. -/
def nix32Decode (s : List Char) (n : Nat) : Option (List Nat) :=
  match s.mapM (alphaVal base32Chars) with
  | none => none
  | some ds =>
    let v := leNum 32 ds.reverse
    if v < 256 ^ n then some (bytesOfVal v n) else none

/-! ### Base-64 codec (spec section 4.1) -/

/-- Character for a 6-bit value. -/
def b64Digit (v : Nat) : Char := base64Chars.getD v 'A'

/-- Modelled from the spec: RFC 4648 base-64 rendering, big-endian 6-bit
groups, padded with `=` to a multiple of four characters. -/
def b64Encode : List Nat → List Char
  | [] => []
  | [a] => [b64Digit (a / 4), b64Digit (a % 4 * 16), '=', '=']
  | [a, b] => [b64Digit (a / 4), b64Digit (a % 4 * 16 + b / 16), b64Digit (b % 16 * 4), '=']
  | a :: b :: c :: rest =>
    b64Digit (a / 4) :: b64Digit (a % 4 * 16 + b / 16) ::
      b64Digit (b % 16 * 4 + c / 64) :: b64Digit (c % 64) :: b64Encode rest

/-- Modelled from the spec: RFC 4648 base-64 decoding, the inverse of
`b64Encode`: four-character groups, padding characters allowed only at the
end, required on input, and slack bits must be zero. -/
def b64Decode : List Char → Option (List Nat)
  | [] => some []
  | c1 :: c2 :: c3 :: c4 :: rest =>
    match alphaVal base64Chars c1, alphaVal base64Chars c2 with
    | some v1, some v2 =>
      if c3 = '=' then
        if c4 = '=' then
          if rest = [] ∧ v2 % 16 = 0 then some [v1 * 4 + v2 / 16] else none
        else none
      else
        match alphaVal base64Chars c3 with
        | some v3 =>
          if c4 = '=' then
            if rest = [] ∧ v3 % 4 = 0 then
              some [v1 * 4 + v2 / 16, v2 % 16 * 16 + v3 / 4]
            else none
          else
            match alphaVal base64Chars c4, b64Decode rest with
            | some v4, some r =>
              some ((v1 * 4 + v2 / 16) :: (v2 % 16 * 16 + v3 / 4) :: (v3 % 4 * 64 + v4) :: r)
            | _, _ => none
        | none => none
    | _, _ => none
  | _ => none

/-! ### Printing (spec section 4.2) -/

/-- The digest rendered in the requested encoding. -/
def renderBody (h : Hash) : HashFormat → List Char
  | .Base16 => b16Encode h.hash
  | .Base32 => nix32Encode h.hash
  | .Base64 => b64Encode h.hash
  | .SRI => b64Encode h.hash

/-- Modelled from the spec: `Hash::to_string(hashFormat, includeType)`
(hash.hh line 132, body in the missing `.cc` file): SRI always prints
`"<algo>-<base64>"`; otherwise the body in the requested encoding, prefixed
by `"<algo>:"` when `includeType` is set. -/
def Hash.to_string (h : Hash) (fmt : HashFormat) (includeType : Bool) : String :=
  String.mk
    ((if fmt = .SRI then printHashTypeL h.type ++ ['-']
      else if includeType then printHashTypeL h.type ++ [':']
      else []) ++ renderBody h fmt)

/-! ### Parsers (spec section 4.3) -/

/-- Split a character list at the first occurrence of `c`; `none` when `c`
does not occur. -/
def splitFirst (c : Char) : List Char → Option (List Char × List Char)
  | [] => none
  | x :: xs =>
    if x = c then some ([], xs)
    else (splitFirst c xs).map (fun p => (x :: p.1, p.2))

/-- Modelled from the spec: the private constructor
`Hash(std::string_view s, HashType type, bool isSRI)` (hash.hh line 85, body
in the missing `.cc` file). With the algorithm fixed, an SRI body is decoded
as base-64 and its decoded size must equal the digest size; otherwise the
encoding is identified by comparing the body's length with the three length
formulae, and a length matching none of them is a `BadHash` error. -/
def parseRest (body : List Char) (t : HashType) (isSRI : Bool) : Except HashError Hash :=
  if isSRI then
    match b64Decode body with
    | some d =>
      if d.length = hashSize t then .ok ⟨t, d⟩
      else .error (.badHash "invalid SRI hash")
    | none => .error (.badHash "invalid base-64 hash")
  else if body.length = base16LenN (hashSize t) then
    match b16Decode body with
    | some d => .ok ⟨t, d⟩
    | none => .error (.badHash "invalid base-16 hash")
  else if body.length = base32LenN (hashSize t) then
    match nix32Decode body (hashSize t) with
    | some d => .ok ⟨t, d⟩
    | none => .error (.badHash "invalid base-32 hash")
  else if body.length = base64LenN (hashSize t) then
    match b64Decode body with
    | some d =>
      if d.length = hashSize t then .ok ⟨t, d⟩
      else .error (.badHash "invalid base-64 hash")
    | none => .error (.badHash "invalid base-64 hash")
  else .error (.badHash "hash has wrong length for hash type")

/-- Resolve the algorithm named before the separator and check it against an
explicitly supplied algorithm (spec: they MUST agree). -/
def resolveType (name : List Char) (opt : Option HashType) : Except HashError HashType :=
  match parseHashTypeOptL name with
  | none => .error (.badHash "unknown hash algorithm")
  | some t =>
    match opt with
    | none => .ok t
    | some t' => if t = t' then .ok t else .error (.badHash "hash algorithm mismatch")

/-- Modelled from the spec: `Hash::parseAny` (hash.hh line 64, body in the
missing `.cc` file). Accepts `"<algo>:<base16|base32|base64>"`,
`"<algo>-<base64>"` (SRI), or a bare body, in which case the algorithm must
be supplied out of band. -/
def parseAny (s : String) (opt : Option HashType) : Except HashError Hash :=
  match splitFirst ':' s.data with
  | some (name, body) =>
    match resolveType name opt with
    | .ok t => parseRest body t false
    | .error e => .error e
  | none =>
    match splitFirst '-' s.data with
    | some (name, body) =>
      match resolveType name opt with
      | .ok t => parseRest body t true
      | .error e => .error e
    | none =>
      match opt with
      | some t => parseRest s.data t false
      | none => .error (.badHash "hash does not include a type")

/-- Modelled from the spec: `Hash::parseAnyPrefixed` (hash.hh line 70, body
in the missing `.cc` file); as `parseAny` but the type prefix is mandatory. -/
def parseAnyPrefixed (s : String) : Except HashError Hash :=
  match splitFirst ':' s.data with
  | some (name, body) =>
    match resolveType name none with
    | .ok t => parseRest body t false
    | .error e => .error e
  | none =>
    match splitFirst '-' s.data with
    | some (name, body) =>
      match resolveType name none with
      | .ok t => parseRest body t true
      | .error e => .error e
    | none => .error (.badHash "hash does not include a type")

/-- Modelled from the spec: `Hash::parseNonSRIUnprefixed` (hash.hh line 76,
body in the missing `.cc` file); body only, algorithm passed in. -/
def parseNonSRIUnprefixed (s : String) (t : HashType) : Except HashError Hash :=
  parseRest s.data t false

/-- Modelled from the spec: `Hash::parseSRI` (hash.hh line 78, body in the
missing `.cc` file); SRI form only. -/
def parseSRI (s : String) : Except HashError Hash :=
  match splitFirst '-' s.data with
  | some (name, body) =>
    match resolveType name none with
    | .ok t => parseRest body t true
    | .error e => .error e
  | none => .error (.badHash "not an SRI hash")

/-- Modelled from the spec: `newHashAllowEmpty` (hash.hh line 150, body in
the missing `.cc` file); an empty string yields the zero hash of the
explicitly supplied algorithm, which must then be present. -/
def newHashAllowEmpty (s : String) (opt : Option HashType) : Except HashError Hash :=
  if s.data = [] then
    match opt with
    | some t => .ok (Hash.ofType t)
    | none => .error (.badHash "empty hash requires explicit hash type")
  else parseAny s opt

/-! ### compressHash and one-shot hashers -/

/-- Fold a byte stream cyclically into an `m`-byte accumulator by XOR. -/
def cyclicXor (src : List Nat) (m : Nat) : List Nat :=
  (List.range src.length).foldl
    (fun acc j => acc.set (j % m) (acc.getD (j % m) 0 ^^^ src.getD j 0))
    (List.replicate m 0)

/-- Modelled from the spec: `compressHash(hash, newSize)` (hash.hh line 183,
body in the missing `.cc` file): compress a hash to `newSize` bytes by
cyclically XORing bytes together, packaged as a `Hash`-shaped value keeping
the original algorithm tag. -/
def compressHash (h : Hash) (newSize : Nat) : Hash :=
  ⟨h.type, cyclicXor h.hash newSize⟩

/-- The spec's characterization of hash compression (section 4.6): the XOR
of all digest bytes whose index `j` below `len` satisfies `j % m = i`. -/
def xorRange (src : List Nat) (m i len : Nat) : Nat :=
  ((List.range len).filter (fun j => j % m = i)).foldr
    (fun j acc => src.getD j 0 ^^^ acc) 0

/-- Modelled from the spec: the primitive digests MD5/SHA-1/SHA-256/SHA-512
are out of scope (assumed from a trusted library); only their digest lengths
(16/20/32/64 bytes) are specified. They are modelled by an unspecified but
fixed executable function returning a digest of the mandated length. -/
def primitiveDigest (t : HashType) (s : List Nat) : List Nat :=
  (cyclicXor s (hashSize t)).map (fun b => b % 256)

/-- Modelled from the spec: `hashString(ht, s)` (hash.hh line 160, body in
the missing `.cc` file): digest of the given byte sequence. -/
def hashString (t : HashType) (s : List Nat) : Hash := ⟨t, primitiveDigest t s⟩

/-- Modelled from the spec: `hashFile(ht, path)` (hash.hh line 167, body in
the missing `.cc` file) hashes the raw contents of the file; it is modelled
as a function of those contents. -/
def hashFile (t : HashType) (contents : List Nat) : Hash := hashString t contents

/-- Modelled from the spec: `hashPath(ht, path, filter)` (hash.hh line 176,
body in the missing `.cc` file) is semantically
`hashString(ht, serialize_tree(path, filter))` paired with the number of
serialized bytes; it is modelled as a function of the serialized stream. -/
def hashPath (t : HashType) (serialized : List Nat) : Hash × Nat :=
  (hashString t serialized, serialized.length)

/-! ### HashSink (spec section 4.5) -/

/-- Modelled from the spec: the state of a `HashSink` (hash.hh lines
223-237, body in the missing `.cc` file). The opaque primitive context
`Ctx` accumulates the bytes fed so far (primitives being out of scope, a
context is observationally the stream it has absorbed), and `bytes` counts
the payload bytes consumed. -/
structure HashSink where
  ht : HashType
  ctx : List Nat
  bytes : Nat

/-- Modelled from the spec: `HashSink(ht)` initializes a fresh context. -/
def HashSink.init (t : HashType) : HashSink := ⟨t, [], 0⟩

/-- Modelled from the spec: feeding bytes updates the context and adds to
the byte counter. -/
def HashSink.write (sk : HashSink) (data : List Nat) : HashSink :=
  ⟨sk.ht, sk.ctx ++ data, sk.bytes + data.length⟩

/-- Modelled from the spec: `finish()` finalizes the context and returns
the `(Hash, total bytes consumed)` pair. -/
def HashSink.finish (sk : HashSink) : Hash × Nat :=
  (⟨sk.ht, primitiveDigest sk.ht sk.ctx⟩, sk.bytes)

/-- Feed a list of chunks one `write` at a time. -/
def HashSink.writeAll (sk : HashSink) (chunks : List (List Nat)) : HashSink :=
  chunks.foldl HashSink.write sk

/-- Modelled from the spec: `printHash16or32` (hash.hh line 155, body in the
missing `.cc` file): print a hash in base-16 if it is MD5, or base-32
otherwise. -/
def printHash16or32 (h : Hash) : String :=
  h.to_string (if h.type = htMD5 then .Base16 else .Base32) false

/-! ### Helper lemmas: alphabets and character tables -/

theorem alphaVal_some_mem {alpha : List Char} {c : Char} {v : Nat}
    (h : alphaVal alpha c = some v) : c ∈ alpha := by
  induction alpha generalizing v with
  | nil => simp [alphaVal] at h
  | cons x xs ih =>
    rw [alphaVal] at h
    by_cases hx : x = c
    · simp [hx]
    · rw [if_neg hx, Option.map_eq_some'] at h
      obtain ⟨w, hw, _⟩ := h
      exact List.mem_cons_of_mem _ (ih hw)

theorem hexVal_hexDigit : ∀ v < 16, alphaVal base16Chars (hexDigit v) = some v := by
  decide

theorem nix32Val_digit : ∀ v < 32, alphaVal base32Chars (base32Chars.getD v '0') = some v := by
  decide

theorem b64Val_digit : ∀ v < 64, alphaVal base64Chars (b64Digit v) = some v := by
  decide

theorem b64Digit_ne_pad : ∀ v < 64, b64Digit v ≠ '=' := by decide

theorem b64Digit_ne_colon : ∀ v < 64, b64Digit v ≠ ':' := by decide

/-! ### Helper lemmas: base-16 codec -/

theorem b16Encode_length (d : List Nat) : (b16Encode d).length = 2 * d.length := by
  induction d with
  | nil => rfl
  | cons b t ih => simp [b16Encode, ih]; omega

theorem b16Decode_b16Encode (d : List Nat) (hd : validBytes d) :
    b16Decode (b16Encode d) = some d := by
  induction d with
  | nil => rfl
  | cons b t ih =>
    have hb : b < 256 := hd b (List.mem_cons_self _ _)
    have ht : validBytes t := fun x hx => hd x (List.mem_cons_of_mem _ hx)
    have e1 := hexVal_hexDigit (b / 16) (by omega)
    have e2 := hexVal_hexDigit (b % 16) (by omega)
    rw [b16Encode, b16Decode, e1, e2, ih ht]
    show some ((b / 16 * 16 + b % 16) :: t) = some (b :: t)
    have : b / 16 * 16 + b % 16 = b := by omega
    rw [this]

theorem b16Decode_length {s : List Char} {d : List Nat} :
    b16Decode s = some d → s.length = 2 * d.length := by
  induction s using b16Decode.induct generalizing d with
  | case1 =>
    intro h
    rw [b16Decode] at h
    cases h
    rfl
  | case2 c1 c2 rest hi lo r hrest hc2 hc1 ih =>
    intro h
    rw [b16Decode, hc1, hc2, hrest] at h
    simp only [] at h
    cases h
    have := ih hrest
    simp only [List.length_cons]
    omega
  | case3 c1 c2 rest hfail ih =>
    intro h
    rw [b16Decode] at h
    rcases ha1 : alphaVal base16Chars c1 with _ | v1 <;>
      rcases ha2 : alphaVal base16Chars c2 with _ | v2 <;>
      rcases ha3 : b16Decode rest with _ | r <;>
      rw [ha1, ha2, ha3] at h <;>
      first
      | exact (hfail _ _ _ ha1 ha2 ha3).elim
      | cases h
  | case4 c =>
    intro h
    rw [b16Decode] at h
    cases h

theorem b16Decode_chars {s : List Char} {d : List Nat} :
    b16Decode s = some d → ∀ c ∈ s, ∃ v, alphaVal base16Chars c = some v := by
  induction s using b16Decode.induct generalizing d with
  | case1 => intro _ c hc; cases hc
  | case2 c1 c2 rest hi lo r hrest hc2 hc1 ih =>
    intro _ c hc
    cases hc with
    | head => exact ⟨hi, hc1⟩
    | tail _ hc =>
      cases hc with
      | head => exact ⟨lo, hc2⟩
      | tail _ hc => exact ih hrest c hc
  | case3 c1 c2 rest hfail ih =>
    intro h
    rw [b16Decode] at h
    rcases ha1 : alphaVal base16Chars c1 with _ | v1 <;>
      rcases ha2 : alphaVal base16Chars c2 with _ | v2 <;>
      rcases ha3 : b16Decode rest with _ | r <;>
      rw [ha1, ha2, ha3] at h <;>
      first
      | exact (hfail _ _ _ ha1 ha2 ha3).elim
      | cases h
  | case4 c =>
    intro h
    rw [b16Decode] at h
    cases h

theorem b16Encode_chars (d : List Nat) (hd : validBytes d) :
    ∀ c ∈ b16Encode d, c ≠ ':' ∧ c ≠ '-' := by
  induction d with
  | nil => intro c hc; cases hc
  | cons b t ih =>
    intro c hc
    have hb : b < 256 := hd b (List.mem_cons_self _ _)
    have ht : validBytes t := fun x hx => hd x (List.mem_cons_of_mem _ hx)
    have hcls : ∀ v < 16, hexDigit v ≠ ':' ∧ hexDigit v ≠ '-' := by decide
    rw [b16Encode] at hc
    cases hc with
    | head => exact hcls (b / 16) (by omega)
    | tail _ hc =>
      cases hc with
      | head => exact hcls (b % 16) (by omega)
      | tail _ hc => exact ih ht c hc

/-! ### Helper lemmas: base-32 codec -/

theorem leNum_head (t : List Nat) :
    leNum 256 t = t.getD 0 0 + 256 * leNum 256 t.tail := by
  cases t <;> simp [leNum]

theorem leNum_div_pow_mod (d : List Nat) (hd : validBytes d) :
    ∀ (i j : Nat), j < 8 →
      leNum 256 d / 2 ^ (8 * i + j) % 32 =
        (d.getD i 0 / 2 ^ j + d.getD (i + 1) 0 * 2 ^ (8 - j)) % 32 := by
  induction d with
  | nil => intro i j _; simp [leNum]
  | cons b t ih =>
    intro i j hj
    have hb : b < 256 := hd b (List.mem_cons_self _ _)
    have ht : validBytes t := fun x hx => hd x (List.mem_cons_of_mem _ hx)
    cases i with
    | zero =>
      have e1 : (2 : Nat) ^ j * 2 ^ (8 - j) = 256 := by
        rw [← pow_add, show j + (8 - j) = 8 from by omega]
        norm_num
      have step1 : leNum 256 (b :: t) / 2 ^ (8 * 0 + j) =
          b / 2 ^ j + 2 ^ (8 - j) * leNum 256 t := by
        rw [show 8 * 0 + j = j from by omega, leNum, ← e1, mul_assoc,
          Nat.add_mul_div_left _ _ (Nat.pos_pow_of_pos j (by omega))]
      have e2 : (2 : Nat) ^ (8 - j) * 256 = 32 * 2 ^ (11 - j) := by
        rw [show (256 : Nat) = 2 ^ 8 from rfl, show (32 : Nat) = 2 ^ 5 from rfl,
          ← pow_add, ← pow_add, show 8 - j + 8 = 5 + (11 - j) from by omega]
      rw [step1, leNum_head t, Nat.mul_add, ← mul_assoc, e2, mul_assoc,
        ← Nat.add_assoc, Nat.add_mul_mod_self_left]
      simp [Nat.mul_comm]
    | succ i =>
      have e3 : (2 : Nat) ^ (8 * (i + 1) + j) = 256 * 2 ^ (8 * i + j) := by
        rw [show (256 : Nat) = 2 ^ 8 from rfl, ← pow_add,
          show 8 * (i + 1) + j = 8 + (8 * i + j) from by omega]
      have e4 : leNum 256 (b :: t) / 256 = leNum 256 t := by
        rw [leNum, Nat.add_mul_div_left _ _ (by omega : (0 : Nat) < 256),
          Nat.div_eq_of_lt hb, Nat.zero_add]
      rw [e3, ← Nat.div_div_eq_div_mul, e4]
      simpa using ih ht i j hj

theorem fiveBits_eq_leNum (d : List Nat) (hd : validBytes d) (n : Nat) :
    fiveBits d n = leNum 256 d / 32 ^ n % 32 := by
  have h8 : 5 * n % 8 < 8 := Nat.mod_lt _ (by omega)
  have hG := leNum_div_pow_mod d hd (5 * n / 8) (5 * n % 8) h8
  rw [show 8 * (5 * n / 8) + 5 * n % 8 = 5 * n from Nat.div_add_mod (5 * n) 8] at hG
  rw [fiveBits, show (32 : Nat) ^ n = 2 ^ (5 * n) from by
    rw [show (32 : Nat) = 2 ^ 5 from rfl, ← pow_mul]]
  exact hG.symm

theorem leNum_recompose (L : Nat) :
    ∀ v < 32 ^ L, leNum 32 ((List.range L).map (fun n => v / 32 ^ n % 32)) = v := by
  induction L with
  | zero =>
    intro v hv
    simp at hv
    simp [leNum, hv]
  | succ L ih =>
    intro v hv
    rw [List.range_succ_eq_map, List.map_cons, List.map_map, leNum]
    have hcomp : ((fun n => v / 32 ^ n % 32) ∘ Nat.succ) =
        fun n => v / 32 / 32 ^ n % 32 := by
      funext n
      simp only [Function.comp]
      rw [Nat.div_div_eq_div_mul, ← pow_succ']
    have hdiv : v / 32 < 32 ^ L := by
      rw [Nat.div_lt_iff_lt_mul (by omega : (0 : Nat) < 32)]
      rw [pow_succ] at hv
      exact hv
    rw [hcomp, ih (v / 32) hdiv]
    simp only [pow_zero, Nat.div_one]
    omega

theorem leNum_lt (d : List Nat) (hd : validBytes d) :
    leNum 256 d < 256 ^ d.length := by
  induction d with
  | nil => simp [leNum]
  | cons b t ih =>
    have hb : b < 256 := hd b (List.mem_cons_self _ _)
    have ht : validBytes t := fun x hx => hd x (List.mem_cons_of_mem _ hx)
    have hT := ih ht
    rw [leNum, List.length_cons, pow_succ]
    -- b + 256 * T < 256 ^ len * 256 given b < 256 and T < 256 ^ len
    omega

theorem bytesOfVal_length (n : Nat) : ∀ v, (bytesOfVal v n).length = n := by
  induction n with
  | zero => intro v; rfl
  | succ n ih => intro v; simp [bytesOfVal, ih]

theorem bytesOfVal_leNum (d : List Nat) (hd : validBytes d) :
    bytesOfVal (leNum 256 d) d.length = d := by
  induction d with
  | nil => rfl
  | cons b t ih =>
    have hb : b < 256 := hd b (List.mem_cons_self _ _)
    have ht : validBytes t := fun x hx => hd x (List.mem_cons_of_mem _ hx)
    rw [leNum, List.length_cons, bytesOfVal,
      Nat.add_mul_mod_self_left, Nat.mod_eq_of_lt hb,
      Nat.add_mul_div_left _ _ (by omega : (0 : Nat) < 256),
      Nat.div_eq_of_lt hb, Nat.zero_add, ih ht]

theorem mapM_nix32_digits (d : List Nat) (ns : List Nat) :
    (ns.map (fun n => base32Chars.getD (fiveBits d n) '0')).mapM (alphaVal base32Chars) =
      some (ns.map (fun n => fiveBits d n)) := by
  induction ns with
  | nil => rfl
  | cons n t ih =>
    have h5 : fiveBits d n < 32 := by
      rw [fiveBits]; omega
    have htab := nix32Val_digit (fiveBits d n) h5
    simp only [List.map_cons, List.mapM_cons, htab, ih, Option.pure_def,
      Option.bind_eq_bind, Option.some_bind]

theorem nix32Encode_length (d : List Nat) :
    (nix32Encode d).length = base32LenN d.length := by
  simp [nix32Encode]

theorem eight_mul_le_five_base32LenN (n : Nat) : 8 * n ≤ 5 * base32LenN n := by
  rw [base32LenN]
  omega

theorem nix32Decode_nix32Encode (d : List Nat) (hd : validBytes d) :
    nix32Decode (nix32Encode d) d.length = some d := by
  rw [nix32Encode, nix32Decode, mapM_nix32_digits]
  simp only [← List.map_reverse, List.reverse_reverse]
  have hfe : (fun n => fiveBits d n) = fun n => leNum 256 d / 32 ^ n % 32 :=
    funext (fiveBits_eq_leNum d hd)
  rw [hfe]
  have hVd : leNum 256 d < 256 ^ d.length := leNum_lt d hd
  have hbound : leNum 256 d < 32 ^ base32LenN d.length := by
    refine lt_of_lt_of_le hVd ?_
    rw [show (256 : Nat) = 2 ^ 8 from rfl, show (32 : Nat) = 2 ^ 5 from rfl,
      ← pow_mul, ← pow_mul]
    exact Nat.pow_le_pow_right (by omega)
      (by have := eight_mul_le_five_base32LenN d.length; omega)
  rw [leNum_recompose _ _ hbound, if_pos hVd, bytesOfVal_leNum d hd]

theorem nix32Decode_length {s : List Char} {n : Nat} {d : List Nat} :
    nix32Decode s n = some d → d.length = n := by
  rw [nix32Decode]
  cases hm : s.mapM (alphaVal base32Chars) with
  | none => intro h; cases h
  | some ds =>
    simp only []
    intro h
    split at h
    · cases h; exact bytesOfVal_length _ _
    · cases h

theorem mapM_some_forall {l : List Char} {r : List Nat} {alpha : List Char} :
    l.mapM (alphaVal alpha) = some r → ∀ c ∈ l, ∃ v, alphaVal alpha c = some v := by
  induction l generalizing r with
  | nil => intro _ c hc; cases hc
  | cons x xs ih =>
    intro h c hc
    rw [List.mapM_cons] at h
    cases hx : alphaVal alpha x with
    | none => rw [hx] at h; simp at h
    | some v =>
      rw [hx] at h
      cases hxs : xs.mapM (alphaVal alpha) with
      | none => rw [hxs] at h; simp at h
      | some rs =>
        cases hc with
        | head => exact ⟨v, hx⟩
        | tail _ hc => exact ih hxs c hc

theorem nix32Decode_chars {s : List Char} {n : Nat} {d : List Nat} :
    nix32Decode s n = some d → ∀ c ∈ s, ∃ v, alphaVal base32Chars c = some v := by
  rw [nix32Decode]
  cases hm : s.mapM (alphaVal base32Chars) with
  | none => intro h; cases h
  | some ds => intro _; exact mapM_some_forall hm

/-! ### Helper lemmas: base-64 codec -/

theorem base64LenN_eq (n : Nat) : base64LenN n = 4 * ((n + 2) / 3) := by
  rw [base64LenN]
  omega

theorem b64Encode_length (d : List Nat) :
    (b64Encode d).length = 4 * ((d.length + 2) / 3) := by
  induction d using b64Encode.induct with
  | case1 => rfl
  | case2 a => simp [b64Encode]
  | case3 a b => simp [b64Encode]
  | case4 a b c rest ih =>
    simp only [b64Encode, List.length_cons, ih]
    omega

theorem b64Decode_b64Encode (d : List Nat) :
    validBytes d → b64Decode (b64Encode d) = some d := by
  induction d using b64Encode.induct with
  | case1 => intro _; rfl
  | case2 a =>
    intro hd
    have ha : a < 256 := hd a (List.mem_cons_self _ _)
    have t1 := b64Val_digit (a / 4) (by omega)
    have t2 := b64Val_digit (a % 4 * 16) (by omega)
    have hg : a % 4 * 16 % 16 = 0 := by omega
    have hv : a / 4 * 4 + a % 4 * 16 / 16 = a := by omega
    simp [b64Encode, b64Decode, t1, t2, hg]
    omega
  | case3 a b =>
    intro hd
    have ha : a < 256 := hd a (List.mem_cons_self _ _)
    have hb : b < 256 := hd b (List.mem_cons_of_mem _ (List.mem_cons_self _ _))
    have t1 := b64Val_digit (a / 4) (by omega)
    have t2 := b64Val_digit (a % 4 * 16 + b / 16) (by omega)
    have t3 := b64Val_digit (b % 16 * 4) (by omega)
    have n3 := b64Digit_ne_pad (b % 16 * 4) (by omega)
    have hg : b % 16 * 4 % 4 = 0 := by omega
    have hv1 : a / 4 * 4 + (a % 4 * 16 + b / 16) / 16 = a := by omega
    have hv2 : (a % 4 * 16 + b / 16) % 16 * 16 + b % 16 * 4 / 4 = b := by omega
    simp [b64Encode, b64Decode, t1, t2, t3, n3, hg]
    omega
  | case4 a b c rest ih =>
    intro hd
    have ha : a < 256 := hd a (List.mem_cons_self _ _)
    have hb : b < 256 := hd b (List.mem_cons_of_mem _ (List.mem_cons_self _ _))
    have hc : c < 256 :=
      hd c (List.mem_cons_of_mem _ (List.mem_cons_of_mem _ (List.mem_cons_self _ _)))
    have hrest : validBytes rest := fun x hx =>
      hd x (List.mem_cons_of_mem _ (List.mem_cons_of_mem _ (List.mem_cons_of_mem _ hx)))
    have t1 := b64Val_digit (a / 4) (by omega)
    have t2 := b64Val_digit (a % 4 * 16 + b / 16) (by omega)
    have t3 := b64Val_digit (b % 16 * 4 + c / 64) (by omega)
    have t4 := b64Val_digit (c % 64) (by omega)
    have n3 := b64Digit_ne_pad (b % 16 * 4 + c / 64) (by omega)
    have n4 := b64Digit_ne_pad (c % 64) (by omega)
    have hv1 : a / 4 * 4 + (a % 4 * 16 + b / 16) / 16 = a := by omega
    have hv2 : (a % 4 * 16 + b / 16) % 16 * 16 + (b % 16 * 4 + c / 64) / 4 = b := by omega
    have hv3 : (b % 16 * 4 + c / 64) % 4 * 64 + c % 64 = c := by omega
    simp [b64Encode, b64Decode, t1, t2, t3, t4, n3, n4, ih hrest]
    omega

theorem b64Encode_chars (d : List Nat) :
    validBytes d → ∀ ch ∈ b64Encode d, ch ≠ ':' := by
  induction d using b64Encode.induct with
  | case1 => intro _ ch hch; cases hch
  | case2 a =>
    intro hd ch hch
    have ha : a < 256 := hd a (List.mem_cons_self _ _)
    rw [b64Encode] at hch
    simp only [List.mem_cons, List.not_mem_nil, or_false] at hch
    rcases hch with h | h | h | h <;> subst h
    · exact b64Digit_ne_colon _ (by omega)
    · exact b64Digit_ne_colon _ (by omega)
    · decide
    · decide
  | case3 a b =>
    intro hd ch hch
    have ha : a < 256 := hd a (List.mem_cons_self _ _)
    have hb : b < 256 := hd b (List.mem_cons_of_mem _ (List.mem_cons_self _ _))
    rw [b64Encode] at hch
    simp only [List.mem_cons, List.not_mem_nil, or_false] at hch
    rcases hch with h | h | h | h <;> subst h
    · exact b64Digit_ne_colon _ (by omega)
    · exact b64Digit_ne_colon _ (by omega)
    · exact b64Digit_ne_colon _ (by omega)
    · decide
  | case4 a b c rest ih =>
    intro hd ch hch
    have ha : a < 256 := hd a (List.mem_cons_self _ _)
    have hb : b < 256 := hd b (List.mem_cons_of_mem _ (List.mem_cons_self _ _))
    have hc : c < 256 :=
      hd c (List.mem_cons_of_mem _ (List.mem_cons_of_mem _ (List.mem_cons_self _ _)))
    have hrest : validBytes rest := fun x hx =>
      hd x (List.mem_cons_of_mem _ (List.mem_cons_of_mem _ (List.mem_cons_of_mem _ hx)))
    rw [b64Encode] at hch
    simp only [List.mem_cons] at hch
    rcases hch with h | h | h | h | h
    · subst h; exact b64Digit_ne_colon _ (by omega)
    · subst h; exact b64Digit_ne_colon _ (by omega)
    · subst h; exact b64Digit_ne_colon _ (by omega)
    · subst h; exact b64Digit_ne_colon _ (by omega)
    · exact ih hrest ch h

/-- A successful base-64 decode only ever reads padding or alphabet
characters. -/
theorem b64Decode_chars {s : List Char} {d : List Nat} :
    b64Decode s = some d → ∀ c ∈ s, c = '=' ∨ ∃ v, alphaVal base64Chars c = some v := by
  induction s using b64Decode.induct generalizing d with
  | case1 => intro _ c hc; cases hc
  | case2 c1 c2 rest v1 v2 h2 h1 hguard =>
    intro _ c hc
    obtain ⟨hrest, _⟩ := hguard
    subst hrest
    rcases List.mem_cons.mp hc with h | hc
    · exact Or.inr ⟨v1, h ▸ h1⟩
    rcases List.mem_cons.mp hc with h | hc
    · exact Or.inr ⟨v2, h ▸ h2⟩
    rcases List.mem_cons.mp hc with h | hc
    · exact Or.inl h
    rcases List.mem_cons.mp hc with h | hc
    · exact Or.inl h
    · cases hc
  | case3 c1 c2 rest v1 v2 h2 h1 hguard =>
    intro hdec
    rw [b64Decode, h1, h2] at hdec
    simp [hguard] at hdec
  | case4 c1 c2 c4 rest v1 v2 h2 h1 hc4 =>
    intro hdec
    rw [b64Decode, h1, h2] at hdec
    simp [hc4] at hdec
  | case5 c1 c2 c3 rest v1 v2 h2 h1 hc3 v3 h3 hguard =>
    intro _ c hc
    obtain ⟨hrest, _⟩ := hguard
    subst hrest
    rcases List.mem_cons.mp hc with h | hc
    · exact Or.inr ⟨v1, h ▸ h1⟩
    rcases List.mem_cons.mp hc with h | hc
    · exact Or.inr ⟨v2, h ▸ h2⟩
    rcases List.mem_cons.mp hc with h | hc
    · exact Or.inr ⟨v3, h ▸ h3⟩
    rcases List.mem_cons.mp hc with h | hc
    · exact Or.inl h
    · cases hc
  | case6 c1 c2 c3 rest v1 v2 h2 h1 hc3 v3 h3 hguard =>
    intro hdec
    rw [b64Decode, h1, h2] at hdec
    simp [hc3, h3, hguard] at hdec
  | case7 c1 c2 c3 c4 rest v1 v2 h2 h1 hc3 v3 h3 hc4 v4 r hrest h4 ih =>
    intro _ c hc
    rcases List.mem_cons.mp hc with h | hc
    · exact Or.inr ⟨v1, h ▸ h1⟩
    rcases List.mem_cons.mp hc with h | hc
    · exact Or.inr ⟨v2, h ▸ h2⟩
    rcases List.mem_cons.mp hc with h | hc
    · exact Or.inr ⟨v3, h ▸ h3⟩
    rcases List.mem_cons.mp hc with h | hc
    · exact Or.inr ⟨v4, h ▸ h4⟩
    · exact ih hrest c hc
  | case8 c1 c2 c3 c4 rest v1 v2 h2 h1 hc3 v3 h3 hc4 hfail ih =>
    intro hdec
    rw [b64Decode, h1, h2] at hdec
    rcases ha4 : alphaVal base64Chars c4 with _ | v4 <;>
      rcases har : b64Decode rest with _ | r <;>
      simp [hc3, h3, hc4, ha4, har] at hdec
    · exact (hfail v4 r ha4 har).elim
  | case9 c1 c2 c3 c4 rest v1 v2 h2 h1 hc3 h3 =>
    intro hdec
    rw [b64Decode, h1, h2] at hdec
    simp [hc3, h3] at hdec
  | case10 c1 c2 c3 c4 rest hfail =>
    intro hdec
    rw [b64Decode] at hdec
    rcases ha1 : alphaVal base64Chars c1 with _ | v1 <;>
      rcases ha2 : alphaVal base64Chars c2 with _ | v2 <;>
      simp [ha1, ha2] at hdec
    · exact (hfail v1 v2 ha1 ha2).elim
  | case11 t hne hshape =>
    intro hdec
    rcases t with _ | ⟨a, _ | ⟨b, _ | ⟨c, _ | ⟨e, rest⟩⟩⟩⟩
    · exact (hne rfl).elim
    · rw [b64Decode] at hdec
      · cases hdec
      · intro h; simp at h
      · intro c1 c2 c3 c4 rest h; simp at h
    · rw [b64Decode] at hdec
      · cases hdec
      · intro h; simp at h
      · intro c1 c2 c3 c4 rest h; simp at h
    · rw [b64Decode] at hdec
      · cases hdec
      · intro h; simp at h
      · intro c1 c2 c3 c4 rest h; simp at h
    · exact (hshape a b c e rest rfl).elim

/-! ### Helper lemmas: prefix splitting and algorithm names -/

theorem splitFirst_append (c : Char) (pre post : List Char) (h : c ∉ pre) :
    splitFirst c (pre ++ c :: post) = some (pre, post) := by
  induction pre with
  | nil => simp [splitFirst]
  | cons x xs ih =>
    have hx : ¬ x = c := fun e => h (e ▸ List.mem_cons_self _ _)
    rw [List.cons_append, splitFirst, if_neg hx,
      ih (fun m => h (List.mem_cons_of_mem _ m))]
    rfl

theorem splitFirst_none (c : Char) (l : List Char) (h : c ∉ l) :
    splitFirst c l = none := by
  induction l with
  | nil => rfl
  | cons x xs ih =>
    have hx : ¬ x = c := fun e => h (e ▸ List.mem_cons_self _ _)
    rw [splitFirst, if_neg hx, ih (fun m => h (List.mem_cons_of_mem _ m))]
    rfl

theorem parse_print_type (t : HashType) :
    parseHashTypeOptL (printHashTypeL t) = some t := by
  cases t <;> rfl

theorem typeName_no_sep (t : HashType) :
    ':' ∉ printHashTypeL t ∧ '-' ∉ printHashTypeL t := by
  cases t <;> exact ⟨by decide, by decide⟩

/-! ### Helper lemmas: cyclic XOR folding -/

theorem foldl_set_length (src : List Nat) (m : Nat) (l : List Nat) :
    ∀ acc : List Nat,
      (l.foldl (fun acc j =>
        acc.set (j % m) (acc.getD (j % m) 0 ^^^ src.getD j 0)) acc).length =
      acc.length := by
  induction l with
  | nil => intro acc; rfl
  | cons x xs ih =>
    intro acc
    rw [List.foldl_cons, ih]
    simp

theorem cyclicXor_length (src : List Nat) (m : Nat) : (cyclicXor src m).length = m := by
  rw [cyclicXor, foldl_set_length, List.length_replicate]

theorem foldr_xor_base (g : Nat → Nat) (b : Nat) (l : List Nat) :
    l.foldr (fun j acc => g j ^^^ acc) b =
      (l.foldr (fun j acc => g j ^^^ acc) 0) ^^^ b := by
  induction l with
  | nil => exact (Nat.zero_xor b).symm
  | cons x l ih => rw [List.foldr_cons, List.foldr_cons, ih, Nat.xor_assoc]

theorem xorRange_succ (src : List Nat) (m i L : Nat) :
    xorRange src m i (L + 1) =
      if L % m = i then xorRange src m i L ^^^ src.getD L 0
      else xorRange src m i L := by
  rw [xorRange, List.range_succ, List.filter_append]
  by_cases hL : L % m = i
  · rw [if_pos hL]
    have hf : List.filter (fun j => decide (j % m = i)) [L] = [L] := by
      simp [List.filter, hL]
    rw [hf, List.foldr_append, List.foldr_cons, List.foldr_nil, foldr_xor_base]
    rw [Nat.xor_zero]
    rfl
  · rw [if_neg hL]
    have hf : List.filter (fun j => decide (j % m = i)) [L] = [] := by
      simp [List.filter, hL]
    rw [hf, List.append_nil]
    rfl

theorem getD_set_self (l : List Nat) (i v : Nat) (h : i < l.length) :
    (l.set i v).getD i 0 = v := by
  rw [List.getD_eq_getElem _ _ (by rw [List.length_set]; exact h),
    List.getElem_set_self]

theorem getD_set_ne (l : List Nat) (k i v : Nat) (hne : k ≠ i) (h : i < l.length) :
    (l.set k v).getD i 0 = l.getD i 0 := by
  rw [List.getD_eq_getElem _ _ (by rw [List.length_set]; exact h),
    List.getElem_set_ne hne, ← List.getD_eq_getElem]

theorem cyclicXor_getD (src : List Nat) (m : Nat) :
    ∀ i < m, (cyclicXor src m).getD i 0 = xorRange src m i src.length := by
  rw [cyclicXor]
  have aux : ∀ (L i : Nat), i < m →
      ((List.range L).foldl (fun acc j =>
        acc.set (j % m) (acc.getD (j % m) 0 ^^^ src.getD j 0))
        (List.replicate m 0)).getD i 0 = xorRange src m i L := by
    intro L
    induction L with
    | zero =>
      intro i hi
      simp [xorRange, List.getD]
    | succ L ih =>
      intro i hi
      rw [List.range_succ, List.foldl_append, List.foldl_cons, List.foldl_nil,
        xorRange_succ]
      have hAlen :
          ((List.range L).foldl (fun acc j =>
            acc.set (j % m) (acc.getD (j % m) 0 ^^^ src.getD j 0))
            (List.replicate m 0)).length = m := by
        rw [foldl_set_length, List.length_replicate]
      by_cases hL : L % m = i
      · rw [if_pos hL, hL, getD_set_self _ _ _ (by rw [hAlen]; exact hi), ih i hi]
      · rw [if_neg hL, getD_set_ne _ _ _ _ hL (by rw [hAlen]; exact hi), ih i hi]
  exact aux src.length

theorem filter_range_mod_eq (m : Nat) : ∀ L i : Nat, L ≤ m → i < m →
    (List.range L).filter (fun j => j % m = i) = if i < L then [i] else [] := by
  intro L
  induction L with
  | zero =>
    intro i _ _
    simp
  | succ L ih =>
    intro i hLm hi
    have hL : L < m := by omega
    have hLmod : L % m = L := Nat.mod_eq_of_lt hL
    rw [List.range_succ, List.filter_append, ih i (by omega) hi]
    by_cases hiL : i = L
    · subst hiL
      have hf : List.filter (fun j => decide (j % m = i)) [i] = [i] := by
        simp [List.filter, hLmod]
      rw [hf, if_neg (by omega), if_pos (by omega), List.nil_append]
    · have hne : ¬ (L % m = i) := by rw [hLmod]; exact fun e => hiL e.symm
      have hf : List.filter (fun j => decide (j % m = i)) [L] = [] := by
        simp [List.filter, hne]
      rw [hf, List.append_nil]
      by_cases hlt : i < L
      · rw [if_pos hlt, if_pos (by omega)]
      · rw [if_neg hlt, if_neg (by omega)]

/-! ### Helper lemmas: parsers and sink -/

theorem parseRest_ok_len {body : List Char} {t : HashType} {isSRI : Bool} {h : Hash} :
    parseRest body t isSRI = .ok h → h.hash.length = hashSize h.type ∧ h.type = t := by
  intro hp
  rw [parseRest] at hp
  split at hp
  · -- SRI branch
    split at hp
    · rename_i d hdec
      split at hp
      · cases hp; rename_i hlen; exact ⟨hlen, rfl⟩
      · cases hp
    · cases hp
  · split at hp
    · -- base16 branch
      rename_i hl16
      split at hp
      · rename_i d hdec
        cases hp
        have h2 := b16Decode_length hdec
        rw [base16LenN] at hl16
        constructor
        · show d.length = hashSize t
          omega
        · rfl
      · cases hp
    · split at hp
      · -- base32 branch
        split at hp
        · rename_i d hdec
          cases hp
          exact ⟨nix32Decode_length hdec, rfl⟩
        · cases hp
      · split at hp
        · -- base64 branch
          split at hp
          · rename_i d hdec
            split at hp
            · cases hp; rename_i hlen; exact ⟨hlen, rfl⟩
            · cases hp
          · cases hp
        · cases hp

theorem parseAny_ok_len {s : String} {opt : Option HashType} {h : Hash} :
    parseAny s opt = .ok h → h.hash.length = hashSize h.type := by
  intro hp
  unfold parseAny at hp
  split at hp
  · split at hp
    · exact (parseRest_ok_len hp).1
    · cases hp
  · split at hp
    · split at hp
      · exact (parseRest_ok_len hp).1
      · cases hp
    · split at hp
      · exact (parseRest_ok_len hp).1
      · cases hp

theorem sink_writeAll_state (chunks : List (List Nat)) :
    ∀ sk : HashSink,
      (sk.writeAll chunks).ht = sk.ht ∧
      (sk.writeAll chunks).ctx = sk.ctx ++ chunks.flatten ∧
      (sk.writeAll chunks).bytes = sk.bytes + (chunks.map List.length).sum := by
  induction chunks with
  | nil => intro sk; simp [HashSink.writeAll]
  | cons c cs ih =>
    intro sk
    have hstep : (sk.writeAll (c :: cs)) = ((sk.write c).writeAll cs) := rfl
    obtain ⟨h1, h2, h3⟩ := ih (sk.write c)
    rw [hstep, h1, h2, h3]
    simp [HashSink.write, List.flatten_cons]
    omega

theorem parseAnyPrefixed_ok_len {s : String} {h : Hash} :
    parseAnyPrefixed s = .ok h → h.hash.length = hashSize h.type := by
  intro hp
  unfold parseAnyPrefixed at hp
  split at hp
  · split at hp
    · exact (parseRest_ok_len hp).1
    · cases hp
  · split at hp
    · split at hp
      · exact (parseRest_ok_len hp).1
      · cases hp
    · cases hp

theorem parseSRI_ok_len {s : String} {h : Hash} :
    parseSRI s = .ok h → h.hash.length = hashSize h.type := by
  intro hp
  unfold parseSRI at hp
  split at hp
  · split at hp
    · exact (parseRest_ok_len hp).1
    · cases hp
  · cases hp

theorem ofType_len (t : HashType) :
    (Hash.ofType t).hash.length = hashSize (Hash.ofType t).type := by
  simp [Hash.ofType]

theorem newHashAllowEmpty_ok_len {s : String} {opt : Option HashType} {h : Hash} :
    newHashAllowEmpty s opt = .ok h → h.hash.length = hashSize h.type := by
  intro hp
  unfold newHashAllowEmpty at hp
  split at hp
  · split at hp
    · cases hp; exact ofType_len _
    · cases hp
  · exact parseAny_ok_len hp

theorem primitiveDigest_length (t : HashType) (s : List Nat) :
    (primitiveDigest t s).length = hashSize t := by
  rw [primitiveDigest, List.length_map, cyclicXor_length]

/-! ### Theorems -/

/-- C1: for every algorithm, every digest of the correct length, and every
format in Base16, Base32, Base64, SRI, parsing the printed form (with its
type prefix) with no out-of-band algorithm round-trips to the same hash. -/
theorem parseAny_to_string_roundtrip :
    ∀ (t : HashType) (d : List Nat), d.length = hashSize t → validBytes d →
      ∀ fmt : HashFormat,
        parseAny ((Hash.mk t d).to_string fmt true) none = .ok (Hash.mk t d) := by
  intro t d hlen hb fmt
  have hcolon : ':' ∉ printHashTypeL t := (typeName_no_sep t).1
  have hdash : '-' ∉ printHashTypeL t := (typeName_no_sep t).2
  cases fmt with
  | Base16 =>
    have hts : (Hash.mk t d).to_string .Base16 true =
        String.mk (printHashTypeL t ++ ':' :: b16Encode d) := by
      simp [Hash.to_string, renderBody]
    have hl : (b16Encode d).length = base16LenN (hashSize t) := by
      rw [b16Encode_length, hlen, base16LenN]
      omega
    rw [hts]
    simp only [parseAny]
    rw [splitFirst_append ':' _ _ hcolon]
    simp only [resolveType, parse_print_type]
    rw [parseRest, if_neg (by simp), if_pos hl, b16Decode_b16Encode d hb]
  | Base32 =>
    have hts : (Hash.mk t d).to_string .Base32 true =
        String.mk (printHashTypeL t ++ ':' :: nix32Encode d) := by
      simp [Hash.to_string, renderBody]
    have hl32 : (nix32Encode d).length = base32LenN (hashSize t) := by
      rw [nix32Encode_length, hlen]
    have hne : base32LenN (hashSize t) ≠ base16LenN (hashSize t) := by
      cases t <;> decide
    rw [hts]
    simp only [parseAny]
    rw [splitFirst_append ':' _ _ hcolon]
    simp only [resolveType, parse_print_type]
    rw [parseRest, if_neg (by simp), if_neg (by rw [hl32]; exact hne), if_pos hl32,
      ← hlen, nix32Decode_nix32Encode d hb]
  | Base64 =>
    have hts : (Hash.mk t d).to_string .Base64 true =
        String.mk (printHashTypeL t ++ ':' :: b64Encode d) := by
      simp [Hash.to_string, renderBody]
    have hl64 : (b64Encode d).length = base64LenN (hashSize t) := by
      rw [b64Encode_length, hlen, base64LenN_eq]
    have hne1 : base64LenN (hashSize t) ≠ base16LenN (hashSize t) := by
      cases t <;> decide
    have hne2 : base64LenN (hashSize t) ≠ base32LenN (hashSize t) := by
      cases t <;> decide
    rw [hts]
    simp only [parseAny]
    rw [splitFirst_append ':' _ _ hcolon]
    simp only [resolveType, parse_print_type]
    rw [parseRest, if_neg (by simp), if_neg (by rw [hl64]; exact hne1),
      if_neg (by rw [hl64]; exact hne2), if_pos hl64, b64Decode_b64Encode d hb]
    simp [hlen]
  | SRI =>
    have hts : (Hash.mk t d).to_string .SRI true =
        String.mk (printHashTypeL t ++ '-' :: b64Encode d) := by
      simp [Hash.to_string, renderBody]
    have hnocolon : ':' ∉ printHashTypeL t ++ '-' :: b64Encode d := by
      intro hmem
      rcases List.mem_append.mp hmem with hmem | hmem
      · exact hcolon hmem
      · rcases List.mem_cons.mp hmem with hmem | hmem
        · cases hmem
        · exact b64Encode_chars d hb ':' hmem rfl
    rw [hts]
    simp only [parseAny]
    rw [splitFirst_none ':' _ hnocolon, splitFirst_append '-' _ _ hdash]
    simp only [resolveType, parse_print_type]
    rw [parseRest, if_pos rfl, b64Decode_b64Encode d hb]
    simp [hlen]

/-- C1 witness: the round trip instantiated at SHA-256, a concrete 32-byte
digest, and the Base32 format. -/
theorem parseAny_to_string_roundtrip_witness :
    (List.replicate 32 7).length = hashSize htSHA256 ∧
    validBytes (List.replicate 32 7) ∧
    parseAny ((Hash.mk htSHA256 (List.replicate 32 7)).to_string .Base32 true) none =
      .ok (Hash.mk htSHA256 (List.replicate 32 7)) :=
  ⟨by decide, by decide,
    parseAny_to_string_roundtrip htSHA256 (List.replicate 32 7)
      (by decide) (by decide) .Base32⟩

/-- C2: parsing `"sha256:1b8m03r63zqhnjf7l5wnldhh7c134ap5vpj0850ymkq1iyzicy5s"`
with no explicit algorithm succeeds, and re-printing the result in Base16
without a type prefix yields exactly
`"ba7816bf8f01cfea414140de5dae2223b00361a396177a9cb410ff61f20015ad"`:
the ecosystem base-32 decoding is bit-exact. -/
theorem parseAny_concrete_sha256_base32_roundtrip :
    (parseAny "sha256:1b8m03r63zqhnjf7l5wnldhh7c134ap5vpj0850ymkq1iyzicy5s" none).map
      (fun h => h.to_string .Base16 false) =
      .ok "ba7816bf8f01cfea414140de5dae2223b00361a396177a9cb410ff61f20015ad" := by
  decide

/-- C3 counterexample: for a 16-byte digest the header's `base32Len` is 26,
but the claimed formula `ceil((8*N - 1)/5) + 1` gives 27, so the claim's
first formula (and its alleged equivalence with the floor formula) fails. -/
theorem base32Len_ceil_formula_false :
    ¬ (Hash.ofType htMD5).base32Len = ceilDiv (8 * md5HashSize - 1) 5 + 1 := by
  decide

/-- C3 amended: `base32Len()` equals `floor((8*N - 1)/5) + 1` for an `N`-byte
digest; in particular it is 26 for N = 16, 32 for N = 20, 52 for N = 32 and
103 for N = 64. -/
theorem base32Len_formula :
    (∀ h : Hash, h.base32Len = (8 * h.hashSize - 1) / 5 + 1) ∧
    (Hash.ofType htMD5).base32Len = 26 ∧
    (Hash.ofType htSHA1).base32Len = 32 ∧
    (Hash.ofType htSHA256).base32Len = 52 ∧
    (Hash.ofType htSHA512).base32Len = 103 := by
  refine ⟨fun h => ?_, by decide, by decide, by decide, by decide⟩
  simp [Hash.base32Len, base32LenN, Nat.mul_comm]

/-- C4: for each of the four algorithms the three encoded-length functions
are pairwise distinct, so a body length can match at most one encoding and
length-based autodetection is unambiguous. -/
theorem encodedLens_pairwise_distinct :
    ∀ t : HashType,
      (Hash.ofType t).base16Len ≠ (Hash.ofType t).base32Len ∧
      (Hash.ofType t).base16Len ≠ (Hash.ofType t).base64Len ∧
      (Hash.ofType t).base32Len ≠ (Hash.ofType t).base64Len := by
  intro t
  cases t <;> exact ⟨by decide, by decide, by decide⟩

/-- C5: for every `Hash` and either value of `includeType`, `to_string` with
the SRI format returns `"<algo>-<base64 digest>"`; the flag has no effect. -/
theorem to_string_sri_ignores_includeType :
    ∀ (h : Hash) (includeType : Bool),
      h.to_string .SRI includeType =
        String.mk (printHashTypeL h.type ++ '-' :: b64Encode h.hash) := by
  intro h includeType
  simp [Hash.to_string, renderBody]

/-- C10: `printHash16or32` prints in Base16 (no type prefix) when the
algorithm is MD5, and in Base32 (no type prefix) for SHA1, SHA256, SHA512. -/
theorem printHash16or32_spec :
    ∀ h : Hash,
      printHash16or32 h =
        h.to_string
          (match h.type with
            | .htMD5 => .Base16
            | .htSHA1 => .Base32
            | .htSHA256 => .Base32
            | .htSHA512 => .Base32)
          false := by
  intro h
  rcases h with ⟨t, d⟩
  cases t <;> rfl

/-- C6: for every Hash and target size m > 0, compressHash returns m bytes
with out[i] the XOR over all j in [0, len) with j % m = i of digest[j];
when m = len the result equals the digest, and when m ≥ len the first len
bytes are the original digest and the remaining bytes are zero. -/
theorem compressHash_spec :
    ∀ (h : Hash) (m : Nat), 0 < m →
      (compressHash h m).hash.length = m ∧
      (∀ i < m, (compressHash h m).hash.getD i 0 = xorRange h.hash m i h.hash.length) ∧
      (m = h.hash.length → (compressHash h m).hash = h.hash) ∧
      (h.hash.length ≤ m → ∀ i < m,
        (compressHash h m).hash.getD i 0 =
          if i < h.hash.length then h.hash.getD i 0 else 0) := by
  intro h m hm
  have hlen : (compressHash h m).hash.length = m := cyclicXor_length h.hash m
  have hfor : ∀ i < m,
      (compressHash h m).hash.getD i 0 = xorRange h.hash m i h.hash.length :=
    cyclicXor_getD h.hash m
  have hge : h.hash.length ≤ m → ∀ i < m,
      (compressHash h m).hash.getD i 0 =
        if i < h.hash.length then h.hash.getD i 0 else 0 := by
    intro hle i hi
    rw [hfor i hi, xorRange, filter_range_mod_eq m h.hash.length i hle hi]
    by_cases hil : i < h.hash.length
    · rw [if_pos hil, if_pos hil, List.foldr_cons, List.foldr_nil, Nat.xor_zero]
    · rw [if_neg hil, if_neg hil, List.foldr_nil]
  refine ⟨hlen, hfor, ?_, hge⟩
  intro hmlen
  apply List.ext_getElem (by rw [hlen, hmlen])
  intro i h1 h2
  rw [← List.getD_eq_getElem _ 0 h1, ← List.getD_eq_getElem _ 0 h2]
  have hi : i < m := by rw [← hlen]; exact h1
  rw [hge (by omega) i hi, if_pos (by omega)]

/-- C6 witness: compression of the zero MD5 hash to 3 bytes. -/
theorem compressHash_spec_witness :
    0 < 3 ∧
    ((compressHash (Hash.ofType htMD5) 3).hash.length = 3 ∧
      (∀ i < 3, (compressHash (Hash.ofType htMD5) 3).hash.getD i 0 =
        xorRange (Hash.ofType htMD5).hash 3 i (Hash.ofType htMD5).hash.length) ∧
      (3 = (Hash.ofType htMD5).hash.length →
        (compressHash (Hash.ofType htMD5) 3).hash = (Hash.ofType htMD5).hash) ∧
      ((Hash.ofType htMD5).hash.length ≤ 3 → ∀ i < 3,
        (compressHash (Hash.ofType htMD5) 3).hash.getD i 0 =
          if i < (Hash.ofType htMD5).hash.length
          then (Hash.ofType htMD5).hash.getD i 0 else 0)) :=
  ⟨by decide, compressHash_spec (Hash.ofType htMD5) 3 (by decide)⟩

/-- C7: every Hash produced by the public constructors, parsers and one-shot
hashers has digest length equal to the digest size of its algorithm;
compressHash is the sole exception, returning a Hash-shaped value of length
`m` regardless of its algorithm tag. -/
theorem digest_length_invariant :
    (∀ t : HashType, (Hash.ofType t).hash.length = hashSize (Hash.ofType t).type) ∧
    (∀ (s : String) (opt : Option HashType) (h : Hash),
      parseAny s opt = .ok h → h.hash.length = hashSize h.type) ∧
    (∀ (s : String) (h : Hash),
      parseAnyPrefixed s = .ok h → h.hash.length = hashSize h.type) ∧
    (∀ (s : String) (t : HashType) (h : Hash),
      parseNonSRIUnprefixed s t = .ok h → h.hash.length = hashSize h.type) ∧
    (∀ (s : String) (h : Hash),
      parseSRI s = .ok h → h.hash.length = hashSize h.type) ∧
    (∀ (s : String) (opt : Option HashType) (h : Hash),
      newHashAllowEmpty s opt = .ok h → h.hash.length = hashSize h.type) ∧
    (∀ (t : HashType) (s : List Nat),
      (hashString t s).hash.length = hashSize (hashString t s).type) ∧
    (∀ (t : HashType) (s : List Nat),
      (hashFile t s).hash.length = hashSize (hashFile t s).type) ∧
    (∀ (t : HashType) (s : List Nat),
      ((hashPath t s).1).hash.length = hashSize ((hashPath t s).1).type) ∧
    (∀ (h : Hash) (m : Nat), (compressHash h m).hash.length = m) := by
  refine ⟨ofType_len,
    fun _ _ _ => parseAny_ok_len,
    fun _ _ => parseAnyPrefixed_ok_len,
    fun _ _ _ hp => (parseRest_ok_len hp).1,
    fun _ _ => parseSRI_ok_len,
    fun _ _ _ => newHashAllowEmpty_ok_len,
    fun t s => primitiveDigest_length t s,
    fun t s => primitiveDigest_length t s,
    fun t s => primitiveDigest_length t s,
    fun h m => cyclicXor_length h.hash m⟩

/-- C7 witness: the invariant via `parseAny` at a concrete base-16 MD5
string, and via `compressHash` compressing the zero MD5 hash to 3 bytes. -/
theorem digest_length_invariant_witness :
    parseAny "md5:00000000000000000000000000000000" none =
      .ok (Hash.mk htMD5 (List.replicate 16 0)) ∧
    (Hash.mk htMD5 (List.replicate 16 0)).hash.length =
      hashSize (Hash.mk htMD5 (List.replicate 16 0)).type ∧
    (compressHash (Hash.ofType htMD5) 3).hash.length = 3 :=
  ⟨by decide,
    digest_length_invariant.2.1 "md5:00000000000000000000000000000000" none
      (Hash.mk htMD5 (List.replicate 16 0)) (by decide),
    digest_length_invariant.2.2.2.2.2.2.2.2.2 (Hash.ofType htMD5) 3⟩

/-- C8: a HashSink fed any chunking of a byte stream and finalized returns
the same (Hash, byte count) pair as feeding the whole stream in one write,
and the byte count equals the total number of payload bytes consumed. -/
theorem hashSink_chunking :
    ∀ (t : HashType) (chunks : List (List Nat)),
      ((HashSink.init t).writeAll chunks).finish =
        ((HashSink.init t).write chunks.flatten).finish ∧
      (((HashSink.init t).writeAll chunks).finish).2 =
        (chunks.map List.length).sum := by
  intro t chunks
  obtain ⟨h1, h2, h3⟩ := sink_writeAll_state chunks (HashSink.init t)
  constructor
  · rw [HashSink.finish, HashSink.finish, h1, h2, h3]
    simp [HashSink.init, HashSink.write]
  · rw [HashSink.finish, h3]
    simp [HashSink.init]

/-- C9: parsers fail with a BadHash error and no other error kind on every
violation: every failure of the four parsers carries the BadHash kind; a
body length matching none of the three encodings fails; a character outside
the encoding's alphabet (the encoding determined by the body's length)
fails; an unknown algorithm name fails; and an explicitly supplied algorithm
differing from the string's prefix fails. -/
theorem parsers_fail_with_badHash :
    (∀ (s : String) (opt : Option HashType) (e : HashError),
      parseAny s opt = .error e → ∃ msg, e = .badHash msg) ∧
    (∀ (s : String) (e : HashError),
      parseAnyPrefixed s = .error e → ∃ msg, e = .badHash msg) ∧
    (∀ (s : String) (t : HashType) (e : HashError),
      parseNonSRIUnprefixed s t = .error e → ∃ msg, e = .badHash msg) ∧
    (∀ (s : String) (e : HashError),
      parseSRI s = .error e → ∃ msg, e = .badHash msg) ∧
    (∀ (s : String) (t : HashType),
      s.data.length ≠ base16LenN (hashSize t) →
      s.data.length ≠ base32LenN (hashSize t) →
      s.data.length ≠ base64LenN (hashSize t) →
      ∃ msg, parseNonSRIUnprefixed s t = .error (.badHash msg)) ∧
    (∀ (s : String) (t : HashType),
      s.data.length = base16LenN (hashSize t) →
      (∃ c ∈ s.data, alphaVal base16Chars c = none) →
      ∃ msg, parseNonSRIUnprefixed s t = .error (.badHash msg)) ∧
    (∀ (s : String) (t : HashType),
      s.data.length = base32LenN (hashSize t) →
      (∃ c ∈ s.data, alphaVal base32Chars c = none) →
      ∃ msg, parseNonSRIUnprefixed s t = .error (.badHash msg)) ∧
    (∀ (s : String) (t : HashType),
      s.data.length = base64LenN (hashSize t) →
      (∃ c ∈ s.data, c ≠ '=' ∧ alphaVal base64Chars c = none) →
      ∃ msg, parseNonSRIUnprefixed s t = .error (.badHash msg)) ∧
    (∀ (name body : List Char) (opt : Option HashType),
      ':' ∉ name → parseHashTypeOptL name = none →
      ∃ msg, parseAny (String.mk (name ++ ':' :: body)) opt = .error (.badHash msg)) ∧
    (∀ (t t' : HashType) (body : List Char),
      t ≠ t' →
      ∃ msg, parseAny (String.mk (printHashTypeL t ++ ':' :: body)) (some t') =
        .error (.badHash msg)) := by
  refine ⟨?_, ?_, ?_, ?_, ?_, ?_, ?_, ?_, ?_, ?_⟩
  · intro s opt e _; cases e; exact ⟨_, rfl⟩
  · intro s e _; cases e; exact ⟨_, rfl⟩
  · intro s t e _; cases e; exact ⟨_, rfl⟩
  · intro s e _; cases e; exact ⟨_, rfl⟩
  · intro s t h16 h32 h64
    rw [parseNonSRIUnprefixed, parseRest, if_neg (by simp), if_neg h16,
      if_neg h32, if_neg h64]
    exact ⟨_, rfl⟩
  · intro s t hl ⟨c, hc, hnone⟩
    rw [parseNonSRIUnprefixed, parseRest, if_neg (by simp), if_pos hl]
    cases hdec : b16Decode s.data with
    | none => exact ⟨_, rfl⟩
    | some d =>
      obtain ⟨v, hv⟩ := b16Decode_chars hdec c hc
      rw [hv] at hnone
      cases hnone
  · intro s t hl ⟨c, hc, hnone⟩
    have hne : base32LenN (hashSize t) ≠ base16LenN (hashSize t) := by
      cases t <;> decide
    rw [parseNonSRIUnprefixed, parseRest, if_neg (by simp),
      if_neg (by rw [hl]; exact hne), if_pos hl]
    cases hdec : nix32Decode s.data (hashSize t) with
    | none => exact ⟨_, rfl⟩
    | some d =>
      obtain ⟨v, hv⟩ := nix32Decode_chars hdec c hc
      rw [hv] at hnone
      cases hnone
  · intro s t hl ⟨c, hc, hcne, hnone⟩
    have hne1 : base64LenN (hashSize t) ≠ base16LenN (hashSize t) := by
      cases t <;> decide
    have hne2 : base64LenN (hashSize t) ≠ base32LenN (hashSize t) := by
      cases t <;> decide
    rw [parseNonSRIUnprefixed, parseRest, if_neg (by simp),
      if_neg (by rw [hl]; exact hne1), if_neg (by rw [hl]; exact hne2), if_pos hl]
    cases hdec : b64Decode s.data with
    | none => exact ⟨_, rfl⟩
    | some d =>
      rcases b64Decode_chars hdec c hc with heq | ⟨v, hv⟩
      · exact (hcne heq).elim
      · rw [hv] at hnone
        cases hnone
  · intro name body opt hname hnone
    simp only [parseAny]
    rw [splitFirst_append ':' _ _ hname]
    simp only [resolveType, hnone]
    exact ⟨_, rfl⟩
  · intro t t' body hne
    simp only [parseAny]
    rw [splitFirst_append ':' _ _ (typeName_no_sep t).1]
    simp only [resolveType, parse_print_type, if_neg hne]
    exact ⟨_, rfl⟩

/-- C9 witness: an unknown algorithm name, an algorithm mismatch, a wrong
body length, and a base-16 body containing a non-hex character, each
rejected with a BadHash error. -/
theorem parsers_fail_with_badHash_witness :
    (∃ msg, parseAny (String.mk ("foo".data ++ ':' :: "00".data)) none =
      .error (.badHash msg)) ∧
    (∃ msg, parseAny (String.mk (printHashTypeL htMD5 ++ ':' :: "00".data))
      (some htSHA1) = .error (.badHash msg)) ∧
    (∃ msg, parseNonSRIUnprefixed "zz" htMD5 = .error (.badHash msg)) ∧
    (∃ msg, parseNonSRIUnprefixed (String.mk (List.replicate 32 'g')) htMD5 =
      .error (.badHash msg)) :=
  ⟨parsers_fail_with_badHash.2.2.2.2.2.2.2.2.1 "foo".data "00".data none
      (by decide) (by decide),
    parsers_fail_with_badHash.2.2.2.2.2.2.2.2.2 htMD5 htSHA1 "00".data
      (by decide),
    parsers_fail_with_badHash.2.2.2.2.1 "zz" htMD5 (by decide) (by decide)
      (by decide),
    parsers_fail_with_badHash.2.2.2.2.2.1 (String.mk (List.replicate 32 'g'))
      htMD5 (by decide) ⟨'g', by decide, by decide⟩⟩

end NixHash
